import Mathlib

/-!
Verification of the chroma-key background removal transform from
`scripts/generate_isometric_assets.py` (`remove_chroma_key_background` and its
inner helpers `color_distance`, `sample_corner_region`, the corner average and
the border-seeded flood fill).

The transform is embedded at the pixel-grid level: an image is a width, a
height and a row-major grid of RGBA pixels (PNG encode/decode is outside the
algorithm).  Coordinates handed to the flood-fill queue are integers, exactly
as in the source, where `width - sample_size` and `x - 1` can go negative and
are handled by explicit bounds checks.

The source compares `color_distance(c, bg) <= tolerance` where
`color_distance` is the float square root of an integer sum of squares and
`tolerance` is a nonnegative integer.  For the magnitudes involved (sums of
squares at most 3 * 255^2 = 195075, tolerances at most a few hundred) the
correctly rounded square root comparison agrees exactly with the integer
comparison `dist2 <= tolerance^2`, which is how the test is embedded here.
-/

/-- One RGBA pixel; channels are nonnegative integers (8-bit in practice). -/
structure RGBA where
  r : Nat
  g : Nat
  b : Nat
  a : Nat
deriving DecidableEq, Repr

instance : Inhabited RGBA := ⟨⟨0, 0, 0, 0⟩⟩

/-- An image: dimensions plus the pixel grid, stored as a list of rows
(`pix.length = height`, each row of length `width` when well-formed). -/
structure Img where
  width : Nat
  height : Nat
  pix : List (List RGBA)
deriving DecidableEq, Repr

/-- Well-formedness: the grid really has `height` rows of `width` pixels. -/
def Img.WF (img : Img) : Prop :=
  img.pix.length = img.height ∧ ∀ row ∈ img.pix, row.length = img.width

instance (img : Img) : Decidable img.WF := by
  unfold Img.WF; infer_instance

/-- `pixels[x, y]` of the source: column `x` of row `y`. -/
def getPix (img : Img) (x y : Nat) : RGBA :=
  (img.pix.getD y []).getD x default

/-- The RGB triple of the pixel at integer coordinates (used only where the
source has already checked `0 <= x < width and 0 <= y < height`). -/
def rgbAt (img : Img) (c : Int × Int) : Nat × Nat × Nat :=
  let p := getPix img c.1.toNat c.2.toNat
  (p.r, p.g, p.b)

/-- Squared Euclidean RGB distance; the source's
`color_distance(c1, c2) = sqrt ((c1.r-c2.r)^2 + (c1.g-c2.g)^2 + (c1.b-c2.b)^2)`
compared against a nonnegative integer tolerance is equivalent to comparing
this square against `tolerance^2`. -/
def color_distance_sq (c1 c2 : Nat × Nat × Nat) : Int :=
  ((c1.1 : Int) - (c2.1 : Int)) ^ 2 + ((c1.2.1 : Int) - (c2.2.1 : Int)) ^ 2 +
    ((c1.2.2 : Int) - (c2.2.2 : Int)) ^ 2

/-- `sample_corner_region(start_x, start_y, size)`: walk the `size × size`
window anchored at `(start_x, start_y)` (dy outer loop, dx inner loop, as in
the source) and collect the RGB triples of the in-bounds pixels. -/
def sample_corner_region (img : Img) (sx sy : Int) (size : Nat) :
    List (Nat × Nat × Nat) :=
  (List.range size).flatMap fun (dy : Nat) =>
    (List.range size).filterMap fun (dx : Nat) =>
      let x := sx + (dx : Int)
      let y := sy + (dy : Int)
      if 0 ≤ x ∧ x < (img.width : Int) ∧ 0 ≤ y ∧ y < (img.height : Int) then
        some (rgbAt img (x, y))
      else
        none

/-- The four corner anchors of the source, in order: top-left, top-right,
bottom-left, bottom-right (`width - sample_size` may be negative). -/
def corner_regions (img : Img) (size : Nat) : List (Int × Int) :=
  [(0, 0), ((img.width : Int) - (size : Int), 0),
   (0, (img.height : Int) - (size : Int)),
   ((img.width : Int) - (size : Int), (img.height : Int) - (size : Int))]

/-- `all_bg_colors`: concatenation of the four corner samples. -/
def all_bg_colors (img : Img) (size : Nat) : List (Nat × Nat × Nat) :=
  (corner_regions img size).flatMap fun c =>
    sample_corner_region img c.1 c.2 size

/-- The background estimate `(avg_r, avg_g, avg_b)`: channelwise
sum-divided-by-count with floor division (Python `//` on nonnegative ints). -/
def bgEstimate (img : Img) (size : Nat) : Nat × Nat × Nat :=
  let colors := all_bg_colors img size
  ((colors.map fun c => c.1).sum / colors.length,
   (colors.map fun c => c.2.1).sum / colors.length,
   (colors.map fun c => c.2.2).sum / colors.length)

/-- The initial flood-fill queue: `(x, 0)` and `(x, height-1)` for each column,
then `(0, y)` and `(width-1, y)` for each row, in source order. -/
def initQueue (img : Img) : List (Int × Int) :=
  ((List.range img.width).flatMap fun (x : Nat) =>
    [((x : Int), 0), ((x : Int), (img.height : Int) - 1)]) ++
  ((List.range img.height).flatMap fun (y : Nat) =>
    [(0, (y : Int)), ((img.width : Int) - 1, (y : Int))])

/-- Does the pixel at `c` pass the source's
`color_distance((r,g,b), bg_color) <= tolerance` test (and is it in bounds,
as the loop checks before reading it)? -/
def absorbs (img : Img) (bg : Nat × Nat × Nat) (tol : Nat) (c : Int × Int) :
    Prop :=
  color_distance_sq (rgbAt img c) bg ≤ (tol : Int) * (tol : Int)

instance (img : Img) (bg : Nat × Nat × Nat) (tol : Nat) (c : Int × Int) :
    Decidable (absorbs img bg tol c) := by
  unfold absorbs; infer_instance

/-- In-bounds test of the loop: `not (x < 0 or x >= width or y < 0 or y >= height)`. -/
def InB (img : Img) (c : Int × Int) : Prop :=
  0 ≤ c.1 ∧ c.1 < (img.width : Int) ∧ 0 ≤ c.2 ∧ c.2 < (img.height : Int)

instance (img : Img) (c : Int × Int) : Decidable (InB img c) := by
  unfold InB; infer_instance

/-- The `while queue:` loop of the source, with explicit fuel (one unit per
iteration; `floodFuel` below always suffices).  Returns the final
`(visited, to_remove)` pair.  `visited.add` and `to_remove.add` become list
cons — both additions are guarded by the not-visited check, so no duplicates
arise.  Neighbors are appended FIFO in source order. -/
def floodLoop (img : Img) (bg : Nat × Nat × Nat) (tol : Nat) :
    Nat → List (Int × Int) → List (Int × Int) → List (Int × Int) →
    List (Int × Int) × List (Int × Int)
  | 0, visited, toRemove, _ => (visited, toRemove)
  | _ + 1, visited, toRemove, [] => (visited, toRemove)
  | fuel + 1, visited, toRemove, c :: rest =>
    if c ∈ visited then
      floodLoop img bg tol fuel visited toRemove rest
    else if ¬ InB img c then
      floodLoop img bg tol fuel visited toRemove rest
    else if absorbs img bg tol c then
      floodLoop img bg tol fuel (c :: visited) (c :: toRemove)
        (rest ++ [(c.1 + 1, c.2), (c.1 - 1, c.2), (c.1, c.2 + 1), (c.1, c.2 - 1)])
    else
      floodLoop img bg tol fuel (c :: visited) toRemove rest

/-- Fuel that always completes the loop: the initial queue length plus five
units per pixel (each absorbed pixel costs one iteration and enqueues four
neighbors; each skipped entry costs one). -/
def floodFuel (img : Img) : Nat :=
  (initQueue img).length + 5 * (img.width * img.height)

/-- The whole border-seeded flood fill of the source. -/
def floodFill (img : Img) (bg : Nat × Nat × Nat) (tol : Nat) :
    List (Int × Int) × List (Int × Int) :=
  floodLoop img bg tol (floodFuel img) [] [] (initQueue img)

/-- The set of coordinates `remove_chroma_key_background` clears: empty when
the corner samples are empty (the source returns early), otherwise the
`to_remove` set of the flood fill run against the corner-average estimate. -/
def removalSet (img : Img) (tol : Nat) (size : Nat) : List (Int × Int) :=
  if all_bg_colors img size = [] then []
  else (floodFill img (bgEstimate img size) tol).2

/-- Write `(0,0,0,0)` at one coordinate of the grid (`pixels[x, y] = (0,0,0,0)`). -/
def clearPix (px : List (List RGBA)) (c : Int × Int) : List (List RGBA) :=
  px.set c.2.toNat ((px.getD c.2.toNat []).set c.1.toNat ⟨0, 0, 0, 0⟩)

/-- `remove_chroma_key_background(image, tolerance, sample_size)` at the pixel
level: estimate the background from the corner samples, return the image
unchanged if there are no samples, otherwise flood fill from the border and
clear every removed pixel. -/
def remove_chroma_key_background (img : Img) (tol : Nat) (size : Nat) : Img :=
  if all_bg_colors img size = [] then img
  else
    { img with pix := (removalSet img tol size).foldl clearPix img.pix }

example : getPix ⟨1, 1, [[⟨5, 6, 7, 8⟩]]⟩ 0 0 = ⟨5, 6, 7, 8⟩ := by decide

example :
    bgEstimate ⟨1, 1, [[⟨5, 6, 7, 8⟩]]⟩ 3 = (5, 6, 7) := by decide

example :
    removalSet ⟨1, 1, [[⟨5, 6, 7, 8⟩]]⟩ 0 1 = [(0, 0)] := by decide

example :
    remove_chroma_key_background ⟨1, 1, [[⟨5, 6, 7, 8⟩]]⟩ 0 1 =
      ⟨1, 1, [[⟨0, 0, 0, 0⟩]]⟩ := by decide

/-! ## Coordinates, borders, adjacency and reachability -/

/-- All in-bounds coordinates of the image. -/
def allCoords (img : Img) : List (Int × Int) :=
  (List.range img.width).flatMap fun (x : Nat) =>
    (List.range img.height).map fun (y : Nat) => ((x : Int), (y : Int))

theorem mem_allCoords {img : Img} {c : Int × Int} :
    c ∈ allCoords img ↔ InB img c := by
  obtain ⟨x, y⟩ := c
  simp only [allCoords, List.mem_flatMap, List.mem_map, List.mem_range, InB]
  constructor
  · rintro ⟨a, ha, b, hb, h⟩
    injection h with h1 h2
    subst h1; subst h2
    exact ⟨by omega, by omega, by omega, by omega⟩
  · rintro ⟨h1, h2, h3, h4⟩
    refine ⟨x.toNat, by omega, y.toNat, by omega, ?_⟩
    simp only [Int.toNat_of_nonneg h1, Int.toNat_of_nonneg h3]

theorem nodup_allCoords (img : Img) : (allCoords img).Nodup := by
  unfold allCoords
  rw [List.nodup_flatMap]
  constructor
  · intro x _
    refine (List.nodup_range img.height).map ?_
    intro a b h
    simpa using congrArg Prod.snd h
  · refine List.Pairwise.imp ?_ (List.nodup_range img.width)
    intro a b hab
    intro c hc1 hc2
    simp only [List.mem_map, List.mem_range] at hc1 hc2
    obtain ⟨y1, _, rfl⟩ := hc1
    obtain ⟨y2, _, h⟩ := hc2
    have := congrArg Prod.fst h
    simp at this
    omega

theorem length_flatMap_const {α : Type} (n k : Nat) (f : Nat → List α)
    (hf : ∀ x, (f x).length = k) :
    ((List.range n).flatMap f).length = n * k := by
  induction n with
  | zero => simp
  | succ m ih =>
    rw [List.range_succ]
    simp only [List.flatMap_append, List.length_append, ih]
    simp [hf]
    ring

theorem length_allCoords (img : Img) :
    (allCoords img).length = img.width * img.height := by
  unfold allCoords
  exact length_flatMap_const _ _ _ fun x => by simp

/-- Number of in-bounds coordinates not yet visited. -/
def unvis (img : Img) (v : List (Int × Int)) : Nat :=
  ((allCoords img).filter fun c => decide (c ∉ v)).length

theorem length_filter_le_of_imp {α : Type} (l : List α) (p q : α → Bool)
    (hpq : ∀ a, q a = true → p a = true) :
    (l.filter q).length ≤ (l.filter p).length := by
  induction l with
  | nil => simp
  | cons b l ih =>
    cases hq : q b with
    | true =>
      have hp := hpq b hq
      simp only [List.filter_cons, hq, hp, if_true]
      simpa using ih
    | false =>
      cases hp : p b <;> simp only [List.filter_cons, hq, hp] <;> simp <;> omega

theorem length_filter_lt_of_imp {α : Type} (l : List α) (p q : α → Bool)
    (hpq : ∀ a, q a = true → p a = true) (a : α) (ha : a ∈ l)
    (hpa : p a = true) (hqa : q a = false) :
    (l.filter q).length < (l.filter p).length := by
  induction l with
  | nil => cases ha
  | cons b l ih =>
    rcases List.mem_cons.mp ha with rfl | hmem
    · have h1 := length_filter_le_of_imp l p q hpq
      simp only [List.filter_cons, hpa, hqa, if_true]
      simp
      omega
    · have hlt := ih hmem
      cases hq : q b with
      | true =>
        have hp := hpq b hq
        simp only [List.filter_cons, hq, hp, if_true]
        simpa using hlt
      | false =>
        cases hp : p b <;> simp only [List.filter_cons, hq, hp] <;> simp <;> omega

theorem unvis_cons_lt {img : Img} {v : List (Int × Int)} {c : Int × Int}
    (hin : InB img c) (hnv : c ∉ v) :
    unvis img (c :: v) < unvis img v := by
  refine length_filter_lt_of_imp _ _ _ ?_ c (mem_allCoords.mpr hin) ?_ ?_
  · intro a haq
    simp only [decide_eq_true_eq] at haq ⊢
    exact fun h => haq (List.mem_cons_of_mem _ h)
  · simpa using hnv
  · simp

theorem unvis_le (img : Img) (v : List (Int × Int)) :
    unvis img v ≤ img.width * img.height := by
  calc unvis img v ≤ (allCoords img).length := List.length_filter_le _ _
  _ = img.width * img.height := length_allCoords img

/-- Loop measure: one unit per queued entry plus five per unvisited pixel;
it strictly decreases at every iteration of `floodLoop`. -/
def floodMeasure (img : Img) (v q : List (Int × Int)) : Nat :=
  q.length + 5 * unvis img v

/-- A pixel on the image's outer border (one of the four edges). -/
def OnBorder (img : Img) (c : Int × Int) : Prop :=
  InB img c ∧ (c.1 = 0 ∨ c.1 = (img.width : Int) - 1 ∨ c.2 = 0 ∨
    c.2 = (img.height : Int) - 1)

instance (img : Img) (c : Int × Int) : Decidable (OnBorder img c) := by
  unfold OnBorder; infer_instance

/-- 4-connectivity: `d` is the right, left, lower or upper neighbor of `c`. -/
def Adj (c d : Int × Int) : Prop :=
  d = (c.1 + 1, c.2) ∨ d = (c.1 - 1, c.2) ∨ d = (c.1, c.2 + 1) ∨
    d = (c.1, c.2 - 1)

/-- A pixel at Euclidean RGB distance ≤ tolerance from the estimate (and in
bounds, so that the distance is computed on an actual pixel). -/
def Matches (img : Img) (bg : Nat × Nat × Nat) (tol : Nat) (c : Int × Int) :
    Prop :=
  InB img c ∧ absorbs img bg tol c

/-- Reachability from the border through a 4-connected chain of pixels each
within tolerance of the background estimate (the chain's first pixel lies on
the border and every pixel of the chain, endpoints included, matches). -/
inductive Reach (img : Img) (bg : Nat × Nat × Nat) (tol : Nat) :
    Int × Int → Prop
  | border (c : Int × Int) : OnBorder img c → Matches img bg tol c →
      Reach img bg tol c
  | step (c d : Int × Int) : Reach img bg tol c → Adj c d →
      Matches img bg tol d → Reach img bg tol d

theorem Reach.toMatches {img : Img} {bg : Nat × Nat × Nat} {tol : Nat}
    {c : Int × Int} (h : Reach img bg tol c) : Matches img bg tol c := by
  cases h with
  | border _ _ hm => exact hm
  | step _ _ _ _ hm => exact hm

theorem mem_initQueue {img : Img} {c : Int × Int} :
    c ∈ initQueue img ↔
      (∃ x : Nat, x < img.width ∧
        (c = ((x : Int), 0) ∨ c = ((x : Int), (img.height : Int) - 1))) ∨
      (∃ y : Nat, y < img.height ∧
        (c = (0, (y : Int)) ∨ c = ((img.width : Int) - 1, (y : Int)))) := by
  simp [initQueue, List.mem_append, List.mem_flatMap, List.mem_range]

theorem initQueue_onBorder {img : Img} {c : Int × Int}
    (hq : c ∈ initQueue img) (hin : InB img c) : OnBorder img c := by
  obtain ⟨x, y⟩ := c
  obtain ⟨h1, h2, h3, h4⟩ := hin
  refine ⟨⟨h1, h2, h3, h4⟩, ?_⟩
  rw [mem_initQueue] at hq
  rcases hq with ⟨a, _, h | h⟩ | ⟨b, _, h | h⟩ <;>
    (injection h with e1 e2) <;> simp_all

theorem onBorder_mem_initQueue {img : Img} {c : Int × Int}
    (h : OnBorder img c) : c ∈ initQueue img := by
  obtain ⟨x, y⟩ := c
  obtain ⟨⟨h1, h2, h3, h4⟩, hb⟩ := h
  rw [mem_initQueue]
  rcases hb with hb | hb | hb | hb
  · right
    refine ⟨y.toNat, by omega, Or.inl ?_⟩
    simp only [Prod.mk.injEq]
    constructor <;> omega
  · right
    refine ⟨y.toNat, by omega, Or.inr ?_⟩
    simp only [Prod.mk.injEq]
    constructor <;> omega
  · left
    refine ⟨x.toNat, by omega, Or.inl ?_⟩
    simp only [Prod.mk.injEq]
    constructor <;> omega
  · left
    refine ⟨x.toNat, by omega, Or.inr ?_⟩
    simp only [Prod.mk.injEq]
    constructor <;> omega

theorem length_initQueue (img : Img) :
    (initQueue img).length = 2 * img.width + 2 * img.height := by
  unfold initQueue
  rw [List.length_append,
    length_flatMap_const img.width 2 _ (fun x => by simp),
    length_flatMap_const img.height 2 _ (fun y => by simp)]
  ring

theorem unvis_cons_le (img : Img) (v : List (Int × Int)) (c : Int × Int) :
    unvis img (c :: v) ≤ unvis img v := by
  refine length_filter_le_of_imp _ _ _ ?_
  intro a haq
  simp only [decide_eq_true_eq] at haq ⊢
  exact fun h => haq (List.mem_cons_of_mem _ h)

/-- The BFS loop invariant: everything in `to_remove` is border-reachable;
every in-bounds queue entry is a border seed or a pushed neighbor of a
reachable pixel; `to_remove ⊆ visited`; `visited` holds in-bounds pixels,
without duplicates; every visited matching pixel is already removed and has
all its in-bounds neighbors visited or queued; and every border pixel is
visited or queued. -/
structure BfsInv (img : Img) (bg : Nat × Nat × Nat) (tol : Nat)
    (v t q : List (Int × Int)) : Prop where
  tReach : ∀ c ∈ t, Reach img bg tol c
  qJust : ∀ c ∈ q, InB img c →
    OnBorder img c ∨ ∃ d, Reach img bg tol d ∧ Adj d c
  tSubV : ∀ c ∈ t, c ∈ v
  vInB : ∀ c ∈ v, InB img c
  vNodup : v.Nodup
  vDone : ∀ c ∈ v, Matches img bg tol c →
    c ∈ t ∧ ∀ d, Adj c d → InB img d → d ∈ v ∨ d ∈ q
  borderCov : ∀ c, OnBorder img c → c ∈ v ∨ c ∈ q

theorem adj_mem_pushed (c : Int × Int) (d : Int × Int) (h : Adj c d) :
    d ∈ [(c.1 + 1, c.2), (c.1 - 1, c.2), (c.1, c.2 + 1), (c.1, c.2 - 1)] := by
  rcases h with h | h | h | h <;> subst h <;> simp

theorem mem_pushed_adj (c : Int × Int) (d : Int × Int)
    (h : d ∈ [(c.1 + 1, c.2), (c.1 - 1, c.2), (c.1, c.2 + 1), (c.1, c.2 - 1)]) :
    Adj c d := by
  simp only [List.mem_cons, List.not_mem_nil, or_false] at h
  rcases h with h | h | h | h <;> [exact Or.inl h; exact Or.inr (Or.inl h);
    exact Or.inr (Or.inr (Or.inl h)); exact Or.inr (Or.inr (Or.inr h))]

/-- Invariant preservation and termination: with fuel at least the measure,
the loop drains the queue and the invariant holds of the final state. -/
theorem floodLoop_inv (img : Img) (bg : Nat × Nat × Nat) (tol : Nat) :
    ∀ (fuel : Nat) (v t q : List (Int × Int)),
      floodMeasure img v q ≤ fuel → BfsInv img bg tol v t q →
      BfsInv img bg tol (floodLoop img bg tol fuel v t q).1
        (floodLoop img bg tol fuel v t q).2 [] := by
  intro fuel
  induction fuel with
  | zero =>
    intro v t q hm hI
    have hq : q = [] := by
      unfold floodMeasure at hm
      have : q.length = 0 := by omega
      exact List.length_eq_zero.mp this
    subst hq
    exact hI
  | succ fuel ih =>
    intro v t q hm hI
    match q with
    | [] => exact hI
    | c :: rest =>
      have hmq : rest.length + 1 + 5 * unvis img v ≤ fuel + 1 := by
        simpa [floodMeasure] using hm
      simp only [floodLoop]
      split_ifs with hv hnin habs
      · -- already visited: drop the entry
        refine ih v t rest ?_ ?_
        · simp only [floodMeasure]; omega
        · refine ⟨hI.tReach, ?_, hI.tSubV, hI.vInB, hI.vNodup, ?_, ?_⟩
          · exact fun c' hc' => hI.qJust c' (List.mem_cons_of_mem _ hc')
          · intro c' hc' hmc'
            obtain ⟨h1, h2⟩ := hI.vDone c' hc' hmc'
            refine ⟨h1, fun d hd hdin => ?_⟩
            rcases h2 d hd hdin with h | h
            · exact Or.inl h
            · rcases List.mem_cons.mp h with rfl | h
              · exact Or.inl hv
              · exact Or.inr h
          · intro c' hc'
            rcases hI.borderCov c' hc' with h | h
            · exact Or.inl h
            · rcases List.mem_cons.mp h with rfl | h
              · exact Or.inl hv
              · exact Or.inr h
      · -- absorbed: mark visited, add to removal set, push neighbors
        have hin : InB img c := hnin
        have hreach : Reach img bg tol c := by
          rcases hI.qJust c (List.mem_cons_self c rest) hin with hb | ⟨d, hd, hadj⟩
          · exact Reach.border c hb ⟨hin, habs⟩
          · exact Reach.step d c hd hadj ⟨hin, habs⟩
        refine ih (c :: v) (c :: t)
          (rest ++ [(c.1 + 1, c.2), (c.1 - 1, c.2), (c.1, c.2 + 1), (c.1, c.2 - 1)])
          ?_ ?_
        · have hlt := unvis_cons_lt hin hv
          simp only [floodMeasure, List.length_append, List.length_cons,
            List.length_nil]
          omega
        · refine ⟨?_, ?_, ?_, ?_, ?_, ?_, ?_⟩
          · intro c' hc'
            rcases List.mem_cons.mp hc' with rfl | hc'
            · exact hreach
            · exact hI.tReach c' hc'
          · intro c' hc' hin'
            rcases List.mem_append.mp hc' with h | h
            · exact hI.qJust c' (List.mem_cons_of_mem _ h) hin'
            · exact Or.inr ⟨c, hreach, mem_pushed_adj c c' h⟩
          · intro c' hc'
            rcases List.mem_cons.mp hc' with rfl | hc'
            · exact List.mem_cons_self _ _
            · exact List.mem_cons_of_mem _ (hI.tSubV c' hc')
          · intro c' hc'
            rcases List.mem_cons.mp hc' with rfl | hc'
            · exact hin
            · exact hI.vInB c' hc'
          · exact List.Nodup.cons hv hI.vNodup
          · intro c' hc' hmc'
            rcases List.mem_cons.mp hc' with rfl | hc'
            · refine ⟨List.mem_cons_self _ _, fun d hd hdin => ?_⟩
              exact Or.inr (List.mem_append.mpr (Or.inr (adj_mem_pushed c' d hd)))
            · obtain ⟨h1, h2⟩ := hI.vDone c' hc' hmc'
              refine ⟨List.mem_cons_of_mem _ h1, fun d hd hdin => ?_⟩
              rcases h2 d hd hdin with h | h
              · exact Or.inl (List.mem_cons_of_mem _ h)
              · rcases List.mem_cons.mp h with rfl | h
                · exact Or.inl (List.mem_cons_self _ _)
                · exact Or.inr (List.mem_append.mpr (Or.inl h))
          · intro c' hc'
            rcases hI.borderCov c' hc' with h | h
            · exact Or.inl (List.mem_cons_of_mem _ h)
            · rcases List.mem_cons.mp h with rfl | h
              · exact Or.inl (List.mem_cons_self _ _)
              · exact Or.inr (List.mem_append.mpr (Or.inl h))
      · -- visited but not matching: mark visited only
        have hin : InB img c := hnin
        refine ih (c :: v) t rest ?_ ?_
        · have hle := unvis_cons_le img v c
          simp only [floodMeasure]
          omega
        · refine ⟨hI.tReach, ?_, ?_, ?_, ?_, ?_, ?_⟩
          · exact fun c' hc' => hI.qJust c' (List.mem_cons_of_mem _ hc')
          · exact fun c' hc' => List.mem_cons_of_mem _ (hI.tSubV c' hc')
          · intro c' hc'
            rcases List.mem_cons.mp hc' with rfl | hc'
            · exact hin
            · exact hI.vInB c' hc'
          · exact List.Nodup.cons hv hI.vNodup
          · intro c' hc' hmc'
            rcases List.mem_cons.mp hc' with rfl | hc'
            · exact absurd hmc'.2 habs
            · obtain ⟨h1, h2⟩ := hI.vDone c' hc' hmc'
              refine ⟨h1, fun d hd hdin => ?_⟩
              rcases h2 d hd hdin with h | h
              · exact Or.inl (List.mem_cons_of_mem _ h)
              · rcases List.mem_cons.mp h with rfl | h
                · exact Or.inl (List.mem_cons_self _ _)
                · exact Or.inr h
          · intro c' hc'
            rcases hI.borderCov c' hc' with h | h
            · exact Or.inl (List.mem_cons_of_mem _ h)
            · rcases List.mem_cons.mp h with rfl | h
              · exact Or.inl (List.mem_cons_self _ _)
              · exact Or.inr h
      · -- out of bounds: drop the entry
        refine ih v t rest ?_ ?_
        · simp only [floodMeasure]; omega
        · refine ⟨hI.tReach, ?_, hI.tSubV, hI.vInB, hI.vNodup, ?_, ?_⟩
          · exact fun c' hc' => hI.qJust c' (List.mem_cons_of_mem _ hc')
          · intro c' hc' hmc'
            obtain ⟨h1, h2⟩ := hI.vDone c' hc' hmc'
            refine ⟨h1, fun d hd hdin => ?_⟩
            rcases h2 d hd hdin with h | h
            · exact Or.inl h
            · rcases List.mem_cons.mp h with rfl | h
              · exact absurd hdin hnin
              · exact Or.inr h
          · intro c' hc'
            rcases hI.borderCov c' hc' with h | h
            · exact Or.inl h
            · rcases List.mem_cons.mp h with rfl | h
              · exact absurd hc'.1 hnin
              · exact Or.inr h

/-- One extra unit of fuel beyond the measure changes nothing: the loop has
already drained its queue. -/
theorem floodLoop_fuel_succ (img : Img) (bg : Nat × Nat × Nat) (tol : Nat) :
    ∀ (fuel : Nat) (v t q : List (Int × Int)),
      floodMeasure img v q ≤ fuel →
      floodLoop img bg tol (fuel + 1) v t q = floodLoop img bg tol fuel v t q := by
  intro fuel
  induction fuel with
  | zero =>
    intro v t q hm
    have hq : q = [] := by
      unfold floodMeasure at hm
      have : q.length = 0 := by omega
      exact List.length_eq_zero.mp this
    subst hq
    rfl
  | succ fuel ih =>
    intro v t q hm
    match q with
    | [] => rfl
    | c :: rest =>
      have hmq : rest.length + 1 + 5 * unvis img v ≤ fuel + 1 := by
        simpa [floodMeasure] using hm
      simp only [floodLoop]
      split_ifs with hv hnin habs
      · exact ih v t rest (by simp only [floodMeasure]; omega)
      · have hlt := unvis_cons_lt hnin hv
        refine ih _ _ _ ?_
        simp only [floodMeasure, List.length_append, List.length_cons,
          List.length_nil]
        omega
      · have hle := unvis_cons_le img v c
        exact ih _ _ _ (by simp only [floodMeasure]; omega)
      · exact ih v t rest (by simp only [floodMeasure]; omega)

theorem floodLoop_fuel_ge (img : Img) (bg : Nat × Nat × Nat) (tol : Nat)
    (fuel fuel' : Nat) (v t q : List (Int × Int))
    (hm : floodMeasure img v q ≤ fuel) (hle : fuel ≤ fuel') :
    floodLoop img bg tol fuel' v t q = floodLoop img bg tol fuel v t q := by
  induction fuel' with
  | zero =>
    have h0 : fuel = 0 := by omega
    subst h0
    rfl
  | succ f ih =>
    rcases Nat.lt_or_ge f fuel with h | h
    · have h1 : fuel = f + 1 := by omega
      subst h1
      rfl
    · rw [floodLoop_fuel_succ img bg tol f v t q (le_trans hm h), ih h]

theorem unvis_nil (img : Img) : unvis img [] = img.width * img.height := by
  unfold unvis
  rw [← length_allCoords img]
  congr 1
  refine List.filter_eq_self.mpr ?_
  intro a _
  simp

theorem bfsInv_init (img : Img) (bg : Nat × Nat × Nat) (tol : Nat) :
    BfsInv img bg tol [] [] (initQueue img) := by
  refine ⟨?_, ?_, ?_, ?_, List.nodup_nil, ?_, ?_⟩
  · intro c hc; cases hc
  · intro c hc hin; exact Or.inl (initQueue_onBorder hc hin)
  · intro c hc; cases hc
  · intro c hc; cases hc
  · intro c hc; cases hc
  · intro c hc; exact Or.inr (onBorder_mem_initQueue hc)

theorem floodMeasure_init_le (img : Img) :
    floodMeasure img [] (initQueue img) ≤ floodFuel img := by
  unfold floodMeasure floodFuel
  rw [unvis_nil]

theorem floodFill_inv (img : Img) (bg : Nat × Nat × Nat) (tol : Nat) :
    BfsInv img bg tol (floodFill img bg tol).1 (floodFill img bg tol).2 [] :=
  floodLoop_inv img bg tol (floodFuel img) [] [] (initQueue img)
    (floodMeasure_init_le img) (bfsInv_init img bg tol)

/-- Correctness of the flood fill: the computed `to_remove` set is exactly
the set of border-reachable matching pixels. -/
theorem mem_floodFill_iff_reach (img : Img) (bg : Nat × Nat × Nat) (tol : Nat)
    (c : Int × Int) :
    c ∈ (floodFill img bg tol).2 ↔ Reach img bg tol c := by
  constructor
  · exact fun h => (floodFill_inv img bg tol).tReach c h
  · intro h
    induction h with
    | border c hb hm =>
      have hv : c ∈ (floodFill img bg tol).1 := by
        rcases (floodFill_inv img bg tol).borderCov c hb with h | h
        · exact h
        · cases h
      exact ((floodFill_inv img bg tol).vDone c hv hm).1
    | step c d hr hadj hm ih =>
      have hcv : c ∈ (floodFill img bg tol).1 :=
        (floodFill_inv img bg tol).tSubV c ih
      have hnb := ((floodFill_inv img bg tol).vDone c hcv hr.toMatches).2
        d hadj hm.1
      rcases hnb with h | h
      · exact ((floodFill_inv img bg tol).vDone d h hm).1
      · cases h

/-! ## Sampling: nonemptiness and the degenerate case -/

theorem rgb00_mem_all_bg_colors (img : Img) (size : Nat) (hw : 1 ≤ img.width)
    (hh : 1 ≤ img.height) (hs : 1 ≤ size) :
    rgbAt img (0, 0) ∈ all_bg_colors img size := by
  unfold all_bg_colors
  refine List.mem_flatMap.mpr ⟨(0, 0), ?_, ?_⟩
  · simp [corner_regions]
  · unfold sample_corner_region
    refine List.mem_flatMap.mpr ⟨0, ?_, ?_⟩
    · simp only [List.mem_range]; omega
    · refine List.mem_filterMap.mpr ⟨0, ?_, ?_⟩
      · simp only [List.mem_range]; omega
      · have h1 : (0 : Int) < (img.width : Int) := by exact_mod_cast hw
        have h2 : (0 : Int) < (img.height : Int) := by exact_mod_cast hh
        simp [h1, h2]

theorem all_bg_colors_ne_nil (img : Img) (size : Nat) (hw : 1 ≤ img.width)
    (hh : 1 ≤ img.height) (hs : 1 ≤ size) :
    all_bg_colors img size ≠ [] :=
  List.ne_nil_of_mem (rgb00_mem_all_bg_colors img size hw hh hs)

theorem sample_corner_region_eq_nil (img : Img) (sx sy : Int) (size : Nat)
    (h : img.width = 0 ∨ img.height = 0) :
    sample_corner_region img sx sy size = [] := by
  unfold sample_corner_region
  rw [List.flatMap_eq_nil_iff]
  intro dy _
  rw [List.filterMap_eq_nil_iff]
  intro dx _
  simp only
  rw [if_neg]
  rcases h with h | h <;> rw [h] <;> intro hcon <;>
    [exact absurd hcon.2.1 (by omega); exact absurd hcon.2.2.2 (by omega)]

theorem all_bg_colors_eq_nil (img : Img) (size : Nat)
    (h : img.width = 0 ∨ img.height = 0) :
    all_bg_colors img size = [] := by
  unfold all_bg_colors
  rw [List.flatMap_eq_nil_iff]
  intro c _
  exact sample_corner_region_eq_nil img c.1 c.2 size h

/-! ## The removal set -/

theorem mem_removalSet_iff (img : Img) (tol size : Nat)
    (hne : all_bg_colors img size ≠ []) (c : Int × Int) :
    c ∈ removalSet img tol size ↔ Reach img (bgEstimate img size) tol c := by
  unfold removalSet
  rw [if_neg hne]
  exact mem_floodFill_iff_reach img (bgEstimate img size) tol c

theorem removalSet_inB (img : Img) (tol size : Nat) :
    ∀ c ∈ removalSet img tol size, InB img c := by
  intro c hc
  unfold removalSet at hc
  split at hc
  · cases hc
  · exact (floodFill_inv img (bgEstimate img size) tol).vInB c
      ((floodFill_inv img (bgEstimate img size) tol).tSubV c hc)

/-! ## Clearing the removed pixels -/

/-- Row-grid pixel read, the grid-level form of `getPix`. -/
def gridGet (px : List (List RGBA)) (x y : Nat) : RGBA :=
  (px.getD y []).getD x default

theorem getPix_eq_gridGet (img : Img) (x y : Nat) :
    getPix img x y = gridGet img.pix x y := rfl

/-- Grid well-formedness: `h` rows of `w` pixels. -/
def GridWF (px : List (List RGBA)) (w h : Nat) : Prop :=
  px.length = h ∧ ∀ row ∈ px, row.length = w

theorem wf_iff_gridWF (img : Img) :
    img.WF ↔ GridWF img.pix img.width img.height := Iff.rfl

theorem gridWF_clearPix (px : List (List RGBA)) (w h : Nat)
    (hWF : GridWF px w h) (c : Int × Int) (hc : c.2.toNat < h) :
    GridWF (clearPix px c) w h := by
  obtain ⟨h1, h2⟩ := hWF
  constructor
  · rw [clearPix, List.length_set, h1]
  · intro row hrow
    rcases List.mem_or_eq_of_mem_set hrow with h | h
    · exact h2 row h
    · subst h
      rw [List.length_set, List.getD_eq_getElem px [] (by omega),
        h2 _ (List.getElem_mem (by omega))]

theorem getD_set_self {α : Type} (l : List α) (i : Nat) (a d : α)
    (h : i < l.length) : (l.set i a).getD i d = a := by
  rw [List.getD_eq_getElem?_getD, List.getElem?_set_self (by simpa using h)]
  rfl

theorem getD_set_ne {α : Type} (l : List α) (i j : Nat) (a d : α)
    (h : i ≠ j) : (l.set i a).getD j d = l.getD j d := by
  rw [List.getD_eq_getElem?_getD, List.getElem?_set_ne h,
    ← List.getD_eq_getElem?_getD]

theorem gridGet_clearPix (px : List (List RGBA)) (w h : Nat)
    (hWF : GridWF px w h) (c : Int × Int)
    (hc : 0 ≤ c.1 ∧ c.1 < (w : Int) ∧ 0 ≤ c.2 ∧ c.2 < (h : Int))
    (x y : Nat) (hx : x < w) (hy : y < h) :
    gridGet (clearPix px c) x y =
      if ((x : Int), (y : Int)) = c then ⟨0, 0, 0, 0⟩ else gridGet px x y := by
  obtain ⟨hl, hrows⟩ := hWF
  obtain ⟨hc1, hc2, hc3, hc4⟩ := hc
  have hcy : c.2.toNat < px.length := by omega
  have hrowlen : (px.getD c.2.toNat []).length = w := by
    rw [List.getD_eq_getElem px [] hcy]
    exact hrows _ (List.getElem_mem hcy)
  by_cases hyy : y = c.2.toNat
  · subst hyy
    unfold gridGet clearPix
    rw [getD_set_self px c.2.toNat _ [] hcy]
    by_cases hxx : x = c.1.toNat
    · subst hxx
      rw [getD_set_self _ _ _ _ (by omega)]
      rw [if_pos]
      obtain ⟨a, b⟩ := c
      simp only [Prod.mk.injEq]
      constructor <;> omega
    · rw [getD_set_ne _ _ _ _ _ (Ne.symm hxx)]
      rw [if_neg]
      intro hcon
      obtain ⟨a, b⟩ := c
      injection hcon with e1 e2
      omega
  · unfold gridGet clearPix
    rw [getD_set_ne _ _ _ _ _ (Ne.symm hyy)]
    rw [if_neg]
    intro hcon
    obtain ⟨a, b⟩ := c
    injection hcon with e1 e2
    omega

theorem gridWF_foldl_clearPix (w h : Nat) (rm : List (Int × Int))
    (hrm : ∀ c ∈ rm, 0 ≤ c.1 ∧ c.1 < (w : Int) ∧ 0 ≤ c.2 ∧ c.2 < (h : Int)) :
    ∀ (px : List (List RGBA)), GridWF px w h →
      GridWF (rm.foldl clearPix px) w h := by
  induction rm with
  | nil => intro px hWF; exact hWF
  | cons c rm ih =>
    intro px hWF
    have hc := hrm c (List.mem_cons_self c rm)
    refine ih (fun d hd => hrm d (List.mem_cons_of_mem _ hd)) _ ?_
    exact gridWF_clearPix px w h hWF c (by omega)

theorem gridGet_foldl_clearPix (w h : Nat) (rm : List (Int × Int))
    (hrm : ∀ c ∈ rm, 0 ≤ c.1 ∧ c.1 < (w : Int) ∧ 0 ≤ c.2 ∧ c.2 < (h : Int)) :
    ∀ (px : List (List RGBA)), GridWF px w h → ∀ (x y : Nat), x < w → y < h →
      gridGet (rm.foldl clearPix px) x y =
        if ((x : Int), (y : Int)) ∈ rm then ⟨0, 0, 0, 0⟩ else gridGet px x y := by
  induction rm with
  | nil => intro px hWF x y hx hy; simp
  | cons c rm ih =>
    intro px hWF x y hx hy
    have hc := hrm c (List.mem_cons_self c rm)
    have hWF' := gridWF_clearPix px w h hWF c (by omega)
    rw [List.foldl_cons,
      ih (fun d hd => hrm d (List.mem_cons_of_mem _ hd)) _ hWF' x y hx hy]
    by_cases hmem : ((x : Int), (y : Int)) ∈ rm
    · rw [if_pos hmem, if_pos (List.mem_cons_of_mem _ hmem)]
    · rw [if_neg hmem, gridGet_clearPix px w h hWF c hc x y hx hy]
      by_cases heq : ((x : Int), (y : Int)) = c
      · rw [if_pos heq, if_pos (heq ▸ List.mem_cons_self c rm)]
      · rw [if_neg heq, if_neg]
        intro hcon
        rcases List.mem_cons.mp hcon with h | h
        · exact heq h
        · exact hmem h

/-! ## The full transform, pixel by pixel -/

theorem remove_width (img : Img) (tol size : Nat) :
    (remove_chroma_key_background img tol size).width = img.width := by
  unfold remove_chroma_key_background
  split <;> rfl

theorem remove_height (img : Img) (tol size : Nat) :
    (remove_chroma_key_background img tol size).height = img.height := by
  unfold remove_chroma_key_background
  split <;> rfl

theorem removalSet_coord_bounds (img : Img) (tol size : Nat) :
    ∀ c ∈ removalSet img tol size,
      0 ≤ c.1 ∧ c.1 < (img.width : Int) ∧ 0 ≤ c.2 ∧ c.2 < (img.height : Int) :=
  fun c hc => removalSet_inB img tol size c hc

theorem remove_WF (img : Img) (tol size : Nat) (hWF : img.WF) :
    (remove_chroma_key_background img tol size).WF := by
  unfold remove_chroma_key_background
  split
  · exact hWF
  · exact gridWF_foldl_clearPix img.width img.height (removalSet img tol size)
      (removalSet_coord_bounds img tol size) img.pix hWF

theorem getPix_remove (img : Img) (tol size : Nat) (hWF : img.WF)
    (x y : Nat) (hx : x < img.width) (hy : y < img.height) :
    getPix (remove_chroma_key_background img tol size) x y =
      if ((x : Int), (y : Int)) ∈ removalSet img tol size then ⟨0, 0, 0, 0⟩
      else getPix img x y := by
  unfold remove_chroma_key_background
  split
  · next hnil =>
    rw [if_neg]
    unfold removalSet
    rw [if_pos hnil]
    exact fun h => absurd h (List.not_mem_nil _)
  · rw [getPix_eq_gridGet]
    exact gridGet_foldl_clearPix img.width img.height (removalSet img tol size)
      (removalSet_coord_bounds img tol size) img.pix hWF x y hx hy

/-! ## Claim theorems -/

/-- C1: for a non-empty image, nonneg tolerance (Nat here) and sample size
≥ 1, `remove_chroma_key_background` clears exactly the pixels reachable from
a border pixel through a 4-connected chain of pixels each within tolerance of
the background estimate; in particular an enclosed matching region, which is
not reachable, is never removed. -/
theorem C1_removal_iff_border_reachable (img : Img) (tol size : Nat)
    (hw : 1 ≤ img.width) (hh : 1 ≤ img.height) (hs : 1 ≤ size) :
    ∀ c : Int × Int, c ∈ removalSet img tol size ↔
      Reach img (bgEstimate img size) tol c :=
  fun c => mem_removalSet_iff img tol size
    (all_bg_colors_ne_nil img size hw hh hs) c

theorem C1_removal_iff_border_reachable_witness :
    (1 ≤ (1 : Nat)) ∧
      (((0 : Int), (0 : Int)) ∈ removalSet ⟨1, 1, [[⟨5, 6, 7, 8⟩]]⟩ 0 1 ↔
        Reach ⟨1, 1, [[⟨5, 6, 7, 8⟩]]⟩
          (bgEstimate ⟨1, 1, [[⟨5, 6, 7, 8⟩]]⟩ 1) 0 (0, 0)) :=
  ⟨by decide, C1_removal_iff_border_reachable ⟨1, 1, [[⟨5, 6, 7, 8⟩]]⟩ 0 1
    (by decide) (by decide) (by decide) (0, 0)⟩

/-- C2: the transform keeps the dimensions, sets every removed pixel to
RGBA `(0,0,0,0)` and leaves every other pixel's four channels unchanged. -/
theorem C2_pixel_frame (img : Img) (tol size : Nat) (hWF : img.WF) :
    (remove_chroma_key_background img tol size).width = img.width ∧
    (remove_chroma_key_background img tol size).height = img.height ∧
    ∀ x y : Nat, x < img.width → y < img.height →
      getPix (remove_chroma_key_background img tol size) x y =
        if ((x : Int), (y : Int)) ∈ removalSet img tol size then ⟨0, 0, 0, 0⟩
        else getPix img x y :=
  ⟨remove_width img tol size, remove_height img tol size,
    fun x y hx hy => getPix_remove img tol size hWF x y hx hy⟩

theorem C2_pixel_frame_witness :
    Img.WF ⟨1, 1, [[⟨5, 6, 7, 8⟩]]⟩ ∧
      getPix (remove_chroma_key_background ⟨1, 1, [[⟨5, 6, 7, 8⟩]]⟩ 0 1) 0 0 =
        (if ((0 : Int), (0 : Int)) ∈ removalSet ⟨1, 1, [[⟨5, 6, 7, 8⟩]]⟩ 0 1
          then ⟨0, 0, 0, 0⟩ else getPix ⟨1, 1, [[⟨5, 6, 7, 8⟩]]⟩ 0 0) :=
  ⟨by decide, (C2_pixel_frame ⟨1, 1, [[⟨5, 6, 7, 8⟩]]⟩ 0 1 (by decide)).2.2
    0 0 (by decide) (by decide)⟩

/-- C5: the visited set never holds a coordinate twice (the visited marker
prevents requeueing), only in-bounds pixels are ever marked, at most
`width * height` pixels are marked, and fuel linear in the pixel count —
`2*(w+h)` border seeds plus five units per pixel — already drains the
queue, so the fill terminates in O(width * height) loop iterations. -/
theorem C5_visited_once_linear_work (img : Img) (bg : Nat × Nat × Nat)
    (tol : Nat) :
    (floodFill img bg tol).1.Nodup ∧
    (∀ c ∈ (floodFill img bg tol).1, InB img c) ∧
    (floodFill img bg tol).1.length ≤ img.width * img.height ∧
    floodFuel img =
      2 * img.width + 2 * img.height + 5 * (img.width * img.height) ∧
    ∀ fuel : Nat, floodFuel img ≤ fuel →
      floodLoop img bg tol fuel [] [] (initQueue img) = floodFill img bg tol := by
  have hinv := floodFill_inv img bg tol
  refine ⟨hinv.vNodup, hinv.vInB, ?_, ?_, ?_⟩
  · have hsub : (floodFill img bg tol).1 ⊆ allCoords img :=
      fun c hc => mem_allCoords.mpr (hinv.vInB c hc)
    calc (floodFill img bg tol).1.length ≤ (allCoords img).length :=
          (hinv.vNodup.subperm hsub).length_le
    _ = img.width * img.height := length_allCoords img
  · unfold floodFuel
    rw [length_initQueue]
  · intro fuel hf
    exact floodLoop_fuel_ge img bg tol (floodFuel img) fuel [] []
      (initQueue img) (floodMeasure_init_le img) hf

theorem C5_visited_once_linear_work_witness :
    floodFuel ⟨1, 1, [[⟨5, 6, 7, 8⟩]]⟩ ≤ 12 ∧
      floodLoop ⟨1, 1, [[⟨5, 6, 7, 8⟩]]⟩ (5, 6, 7) 0 12 [] []
          (initQueue ⟨1, 1, [[⟨5, 6, 7, 8⟩]]⟩) =
        floodFill ⟨1, 1, [[⟨5, 6, 7, 8⟩]]⟩ (5, 6, 7) 0 :=
  ⟨by decide, (C5_visited_once_linear_work ⟨1, 1, [[⟨5, 6, 7, 8⟩]]⟩
    (5, 6, 7) 0).2.2.2.2 12 (by decide)⟩

/-- C7: the transform is total (the embedding is a function, and the source
raises nothing for well-formed input); when the corner samples are empty the
input is returned unchanged, and for sample size ≥ 1 the samples are empty
exactly for a zero-area image (zero width or zero height). -/
theorem C7_degenerate_input_unchanged (img : Img) (tol size : Nat) :
    (all_bg_colors img size = [] →
      remove_chroma_key_background img tol size = img) ∧
    (1 ≤ size →
      (all_bg_colors img size = [] ↔ img.width = 0 ∨ img.height = 0)) := by
  constructor
  · intro h
    unfold remove_chroma_key_background
    rw [if_pos h]
  · intro hs
    constructor
    · intro h
      by_contra hcon
      push_neg at hcon
      exact all_bg_colors_ne_nil img size (by omega) (by omega) hs h
    · exact all_bg_colors_eq_nil img size

theorem C7_degenerate_input_unchanged_witness :
    all_bg_colors ⟨0, 0, []⟩ 3 = [] ∧
      remove_chroma_key_background ⟨0, 0, []⟩ 5 3 = ⟨0, 0, []⟩ :=
  ⟨by decide, (C7_degenerate_input_unchanged ⟨0, 0, []⟩ 5 3).1 (by decide)⟩

/-! ## The transform reads only the RGB channels -/

theorem flatMap_congr_local {α β : Type} (l : List α) (f g : α → List β)
    (h : ∀ a ∈ l, f a = g a) : l.flatMap f = l.flatMap g := by
  induction l with
  | nil => rfl
  | cons a l ih =>
    simp only [List.flatMap_cons, h a (List.mem_cons_self a l)]
    rw [ih fun b hb => h b (List.mem_cons_of_mem _ hb)]

theorem rgbAt_congr (img1 img2 : Img)
    (hrgb : ∀ x y : Nat, x < img1.width → y < img1.height →
      (getPix img1 x y).r = (getPix img2 x y).r ∧
      (getPix img1 x y).g = (getPix img2 x y).g ∧
      (getPix img1 x y).b = (getPix img2 x y).b)
    (c : Int × Int) (hc : InB img1 c) : rgbAt img1 c = rgbAt img2 c := by
  obtain ⟨h1, h2, h3, h4⟩ := hc
  obtain ⟨e1, e2, e3⟩ := hrgb c.1.toNat c.2.toNat (by omega) (by omega)
  unfold rgbAt
  simp only [e1, e2, e3]

theorem sample_corner_region_congr (img1 img2 : Img)
    (hw : img1.width = img2.width) (hh : img1.height = img2.height)
    (hrgb : ∀ x y : Nat, x < img1.width → y < img1.height →
      (getPix img1 x y).r = (getPix img2 x y).r ∧
      (getPix img1 x y).g = (getPix img2 x y).g ∧
      (getPix img1 x y).b = (getPix img2 x y).b)
    (sx sy : Int) (size : Nat) :
    sample_corner_region img1 sx sy size =
      sample_corner_region img2 sx sy size := by
  unfold sample_corner_region
  refine flatMap_congr_local _ _ _ ?_
  intro dy _
  refine List.filterMap_congr ?_
  intro dx _
  simp only
  by_cases hcond : 0 ≤ sx + (dx : Int) ∧ sx + (dx : Int) < (img1.width : Int) ∧
      0 ≤ sy + (dy : Int) ∧ sy + (dy : Int) < (img1.height : Int)
  · rw [if_pos hcond, if_pos (by rw [← hw, ← hh]; exact hcond)]
    rw [rgbAt_congr img1 img2 hrgb (sx + (dx : Int), sy + (dy : Int)) hcond]
  · rw [if_neg hcond, if_neg (by rw [← hw, ← hh]; exact hcond)]

theorem all_bg_colors_congr (img1 img2 : Img)
    (hw : img1.width = img2.width) (hh : img1.height = img2.height)
    (hrgb : ∀ x y : Nat, x < img1.width → y < img1.height →
      (getPix img1 x y).r = (getPix img2 x y).r ∧
      (getPix img1 x y).g = (getPix img2 x y).g ∧
      (getPix img1 x y).b = (getPix img2 x y).b)
    (size : Nat) :
    all_bg_colors img1 size = all_bg_colors img2 size := by
  unfold all_bg_colors
  have hcr : corner_regions img1 size = corner_regions img2 size := by
    unfold corner_regions
    rw [hw, hh]
  rw [← hcr]
  refine flatMap_congr_local _ _ _ ?_
  intro c _
  exact sample_corner_region_congr img1 img2 hw hh hrgb c.1 c.2 size

theorem floodLoop_congr (img1 img2 : Img) (bg : Nat × Nat × Nat) (tol : Nat)
    (hw : img1.width = img2.width) (hh : img1.height = img2.height)
    (hrgb : ∀ x y : Nat, x < img1.width → y < img1.height →
      (getPix img1 x y).r = (getPix img2 x y).r ∧
      (getPix img1 x y).g = (getPix img2 x y).g ∧
      (getPix img1 x y).b = (getPix img2 x y).b) :
    ∀ (fuel : Nat) (v t q : List (Int × Int)),
      floodLoop img1 bg tol fuel v t q = floodLoop img2 bg tol fuel v t q := by
  intro fuel
  induction fuel with
  | zero => intro v t q; rfl
  | succ fuel ih =>
    intro v t q
    match q with
    | [] => rfl
    | c :: rest =>
      have hInB : InB img1 c ↔ InB img2 c := by
        unfold InB
        rw [hw, hh]
      simp only [floodLoop]
      by_cases hv : c ∈ v
      · rw [if_pos hv, if_pos hv, ih]
      · rw [if_neg hv, if_neg hv]
        by_cases hin : InB img1 c
        · rw [if_neg (not_not_intro hin),
            if_neg (not_not_intro (hInB.mp hin))]
          have habs : absorbs img1 bg tol c ↔ absorbs img2 bg tol c := by
            unfold absorbs
            rw [rgbAt_congr img1 img2 hrgb c hin]
          by_cases ha : absorbs img1 bg tol c
          · rw [if_pos ha, if_pos (habs.mp ha), ih]
          · rw [if_neg ha, if_neg (fun h => ha (habs.mpr h)), ih]
        · rw [if_pos hin, if_pos (fun h => hin (hInB.mpr h)), ih]

theorem floodFill_congr (img1 img2 : Img) (bg : Nat × Nat × Nat) (tol : Nat)
    (hw : img1.width = img2.width) (hh : img1.height = img2.height)
    (hrgb : ∀ x y : Nat, x < img1.width → y < img1.height →
      (getPix img1 x y).r = (getPix img2 x y).r ∧
      (getPix img1 x y).g = (getPix img2 x y).g ∧
      (getPix img1 x y).b = (getPix img2 x y).b) :
    floodFill img1 bg tol = floodFill img2 bg tol := by
  unfold floodFill floodFuel initQueue
  rw [hw, hh]
  exact floodLoop_congr img1 img2 bg tol hw hh hrgb _ _ _ _

/-- C10: two images with the same dimensions and identical RGB channels but
arbitrary alpha channels yield the same background estimate and the same
removal set — the input alpha never influences which pixels are removed. -/
theorem C10_alpha_never_influences_removal (img1 img2 : Img) (tol size : Nat)
    (hw : img1.width = img2.width) (hh : img1.height = img2.height)
    (hrgb : ∀ x y : Nat, x < img1.width → y < img1.height →
      (getPix img1 x y).r = (getPix img2 x y).r ∧
      (getPix img1 x y).g = (getPix img2 x y).g ∧
      (getPix img1 x y).b = (getPix img2 x y).b) :
    bgEstimate img1 size = bgEstimate img2 size ∧
    removalSet img1 tol size = removalSet img2 tol size := by
  have hbg : bgEstimate img1 size = bgEstimate img2 size := by
    unfold bgEstimate
    rw [all_bg_colors_congr img1 img2 hw hh hrgb size]
  refine ⟨hbg, ?_⟩
  unfold removalSet
  rw [all_bg_colors_congr img1 img2 hw hh hrgb size, hbg,
    floodFill_congr img1 img2 (bgEstimate img2 size) tol hw hh hrgb]

theorem C10_alpha_never_influences_removal_witness :
    bgEstimate ⟨1, 1, [[⟨5, 6, 7, 8⟩]]⟩ 1 =
        bgEstimate ⟨1, 1, [[⟨5, 6, 7, 200⟩]]⟩ 1 ∧
      removalSet ⟨1, 1, [[⟨5, 6, 7, 8⟩]]⟩ 0 1 =
        removalSet ⟨1, 1, [[⟨5, 6, 7, 200⟩]]⟩ 0 1 :=
  C10_alpha_never_influences_removal ⟨1, 1, [[⟨5, 6, 7, 8⟩]]⟩
    ⟨1, 1, [[⟨5, 6, 7, 200⟩]]⟩ 0 1 rfl rfl
    (by intro x y hx hy; interval_cases x <;> interval_cases y <;> decide)

/-! ## Corner windows clip to the image bounds -/

/-- Number of in-bounds offsets of a window of `size` cells anchored at `s`
inside `[0, bound)`: the window is truncated at both ends, never wrapped or
padded. -/
def clipCount (s : Int) (size : Nat) (bound : Nat) : Nat :=
  (min (s + (size : Int)) (bound : Int) - max s 0).toNat

/-- The in-bounds coordinates of the `size × size` window anchored at
`(sx, sy)`, row by row — the spec's "clipped to image bounds" window. -/
def clippedCoords (img : Img) (sx sy : Int) (size : Nat) : List (Int × Int) :=
  (List.range (clipCount sy size img.height)).flatMap fun (dy : Nat) =>
    (List.range (clipCount sx size img.width)).map fun (dx : Nat) =>
      (max sx 0 + (dx : Int), max sy 0 + (dy : Int))

theorem filterMap_range_interval {α : Type} (f : Int → α) (s hi : Int) :
    ∀ n : Nat,
      (List.range n).filterMap
          (fun (d : Nat) => if 0 ≤ s + (d : Int) ∧ s + (d : Int) < hi
            then some (f (s + (d : Int))) else none) =
        (List.range ((min (s + (n : Int)) hi - max s 0).toNat)).map
          (fun (d : Nat) => f (max s 0 + (d : Int))) := by
  intro n
  induction n with
  | zero =>
    have h0 : ((min (s + ((0 : Nat) : Int)) hi - max s 0).toNat) = 0 := by
      simp only [Nat.cast_zero, add_zero]
      omega
    rw [h0]
    simp
  | succ n ih =>
    rw [List.range_succ, List.filterMap_append, ih]
    by_cases hc : 0 ≤ s + (n : Int) ∧ s + (n : Int) < hi
    · have hcnt : ((min (s + ((n + 1 : Nat) : Int)) hi - max s 0).toNat) =
          ((min (s + (n : Int)) hi - max s 0).toNat) + 1 := by
        push_cast
        omega
      have hval : max s 0 +
          (((min (s + (n : Int)) hi - max s 0).toNat : Int)) = s + (n : Int) := by
        omega
      rw [hcnt, List.range_succ, List.map_append]
      simp only [List.filterMap_cons, List.filterMap_nil, if_pos hc,
        List.map_cons, List.map_nil, hval]
    · have hcnt : ((min (s + ((n + 1 : Nat) : Int)) hi - max s 0).toNat) =
          ((min (s + (n : Int)) hi - max s 0).toNat) := by
        push_cast
        omega
      rw [hcnt]
      simp only [List.filterMap_cons, List.filterMap_nil, if_neg hc,
        List.append_nil]

theorem flatMap_range_interval {α : Type} (f : Int → List α) (s hi : Int) :
    ∀ n : Nat,
      (List.range n).flatMap
          (fun (d : Nat) => if 0 ≤ s + (d : Int) ∧ s + (d : Int) < hi
            then f (s + (d : Int)) else []) =
        (List.range ((min (s + (n : Int)) hi - max s 0).toNat)).flatMap
          (fun (d : Nat) => f (max s 0 + (d : Int))) := by
  intro n
  induction n with
  | zero =>
    have h0 : ((min (s + ((0 : Nat) : Int)) hi - max s 0).toNat) = 0 := by
      simp only [Nat.cast_zero, add_zero]
      omega
    rw [h0]
    simp
  | succ n ih =>
    rw [List.range_succ, List.flatMap_append, ih]
    by_cases hc : 0 ≤ s + (n : Int) ∧ s + (n : Int) < hi
    · have hcnt : ((min (s + ((n + 1 : Nat) : Int)) hi - max s 0).toNat) =
          ((min (s + (n : Int)) hi - max s 0).toNat) + 1 := by
        push_cast
        omega
      have hval : max s 0 +
          (((min (s + (n : Int)) hi - max s 0).toNat : Int)) = s + (n : Int) := by
        omega
      rw [hcnt, List.range_succ, List.flatMap_append]
      simp only [List.flatMap_cons, List.flatMap_nil, if_pos hc,
        List.append_nil, hval]
    · have hcnt : ((min (s + ((n + 1 : Nat) : Int)) hi - max s 0).toNat) =
          ((min (s + (n : Int)) hi - max s 0).toNat) := by
        push_cast
        omega
      rw [hcnt]
      simp only [List.flatMap_cons, List.flatMap_nil, if_neg hc,
        List.append_nil]

theorem sample_corner_region_eq_clipped (img : Img) (sx sy : Int)
    (size : Nat) :
    sample_corner_region img sx sy size =
      (clippedCoords img sx sy size).map (rgbAt img) := by
  unfold sample_corner_region
  have hrows : ∀ dy ∈ List.range size,
      ((List.range size).filterMap fun (dx : Nat) =>
        let x := sx + (dx : Int)
        let y := sy + (dy : Int)
        if 0 ≤ x ∧ x < (img.width : Int) ∧ 0 ≤ y ∧ y < (img.height : Int) then
          some (rgbAt img (x, y))
        else none) =
      (if 0 ≤ sy + (dy : Int) ∧ sy + (dy : Int) < (img.height : Int) then
        (List.range (clipCount sx size img.width)).map
          (fun (dx : Nat) => rgbAt img (max sx 0 + (dx : Int), sy + (dy : Int)))
      else []) := by
    intro dy _
    by_cases hy : 0 ≤ sy + (dy : Int) ∧ sy + (dy : Int) < (img.height : Int)
    · rw [if_pos hy]
      have hcong : ∀ dx ∈ List.range size,
          (let x := sx + (dx : Int)
           let y := sy + (dy : Int)
           if 0 ≤ x ∧ x < (img.width : Int) ∧ 0 ≤ y ∧ y < (img.height : Int)
           then some (rgbAt img (x, y)) else none) =
          (if 0 ≤ sx + (dx : Int) ∧ sx + (dx : Int) < (img.width : Int)
           then some (rgbAt img (sx + (dx : Int), sy + (dy : Int))) else none) := by
        intro dx _
        simp only
        by_cases hx : 0 ≤ sx + (dx : Int) ∧ sx + (dx : Int) < (img.width : Int)
        · rw [if_pos ⟨hx.1, hx.2, hy.1, hy.2⟩, if_pos hx]
        · rw [if_neg (fun hcon => hx ⟨hcon.1, hcon.2.1⟩), if_neg hx]
      rw [List.filterMap_congr hcong]
      exact filterMap_range_interval
        (fun x => rgbAt img (x, sy + (dy : Int))) sx (img.width : Int) size
    · rw [if_neg hy]
      rw [List.filterMap_eq_nil_iff]
      intro dx _
      simp only
      rw [if_neg]
      intro hcon
      exact hy ⟨hcon.2.2.1, hcon.2.2.2⟩
  rw [flatMap_congr_local _ _ _ hrows]
  rw [flatMap_range_interval
    (fun y => (List.range (clipCount sx size img.width)).map
      (fun (dx : Nat) => rgbAt img (max sx 0 + (dx : Int), y)))
    sy (img.height : Int) size]
  unfold clippedCoords clipCount
  rw [List.map_flatMap]
  refine flatMap_congr_local _ _ _ ?_
  intro dy _
  rw [List.map_map]
  rfl

/-- The (unclipped) `size × size` window anchored at `(sx, sy)`. -/
def inWindow (sx sy : Int) (size : Nat) (c : Int × Int) : Prop :=
  sx ≤ c.1 ∧ c.1 < sx + (size : Int) ∧ sy ≤ c.2 ∧ c.2 < sy + (size : Int)

instance (sx sy : Int) (size : Nat) (c : Int × Int) :
    Decidable (inWindow sx sy size c) := by
  unfold inWindow; infer_instance

theorem mem_clippedCoords {img : Img} {sx sy : Int} {size : Nat}
    {c : Int × Int} :
    c ∈ clippedCoords img sx sy size ↔
      inWindow sx sy size c ∧ InB img c := by
  obtain ⟨x, y⟩ := c
  simp only [clippedCoords, clipCount, inWindow, InB, List.mem_flatMap,
    List.mem_map, List.mem_range]
  constructor
  · rintro ⟨dy, hdy, dx, hdx, h⟩
    injection h with h1 h2
    subst h1; subst h2
    refine ⟨⟨?_, ?_, ?_, ?_⟩, ?_, ?_, ?_, ?_⟩ <;> omega
  · rintro ⟨⟨h1, h2, h3, h4⟩, h5, h6, h7, h8⟩
    refine ⟨(y - max sy 0).toNat, by omega, (x - max sx 0).toNat, by omega, ?_⟩
    simp only [Prod.mk.injEq]
    constructor <;> omega

theorem nodup_clippedCoords (img : Img) (sx sy : Int) (size : Nat) :
    (clippedCoords img sx sy size).Nodup := by
  unfold clippedCoords
  rw [List.nodup_flatMap]
  constructor
  · intro dy _
    refine (List.nodup_range _).map ?_
    intro a b h
    have := congrArg Prod.fst h
    simp only at this
    omega
  · refine List.Pairwise.imp ?_ (List.nodup_range _)
    intro a b hab c hc1 hc2
    simp only [List.mem_map, List.mem_range] at hc1 hc2
    obtain ⟨x1, _, rfl⟩ := hc1
    obtain ⟨x2, _, h⟩ := hc2
    have := congrArg Prod.snd h
    simp only at this
    omega

/-- C6: each corner sample walk reads exactly the pixels of the window
clipped to the image bounds — truncated, never wrapped or padded — so every
collected sample comes from an in-bounds pixel, for any anchor and any
window size (including sizes larger than the image). -/
theorem C6_corner_window_clipped (img : Img) (sx sy : Int) (size : Nat) :
    sample_corner_region img sx sy size =
      (clippedCoords img sx sy size).map (rgbAt img) ∧
    (∀ c : Int × Int, c ∈ clippedCoords img sx sy size ↔
      inWindow sx sy size c ∧ InB img c) ∧
    ∀ t ∈ sample_corner_region img sx sy size,
      ∃ x y : Nat, x < img.width ∧ y < img.height ∧
        t = ((getPix img x y).r, (getPix img x y).g, (getPix img x y).b) := by
  refine ⟨sample_corner_region_eq_clipped img sx sy size,
    fun c => mem_clippedCoords, ?_⟩
  intro t ht
  rw [sample_corner_region_eq_clipped img sx sy size] at ht
  obtain ⟨c, hc, rfl⟩ := List.mem_map.mp ht
  obtain ⟨_, h5, h6, h7, h8⟩ := (mem_clippedCoords.mp hc)
  exact ⟨c.1.toNat, c.2.toNat, by omega, by omega, rfl⟩

theorem C6_corner_window_clipped_witness :
    ((5, 6, 7) : Nat × Nat × Nat) ∈
        sample_corner_region ⟨1, 1, [[⟨5, 6, 7, 8⟩]]⟩ (-1) (-1) 3 ∧
      ∃ x y : Nat, x < 1 ∧ y < 1 ∧
        ((5, 6, 7) : Nat × Nat × Nat) =
          ((getPix ⟨1, 1, [[⟨5, 6, 7, 8⟩]]⟩ x y).r,
           (getPix ⟨1, 1, [[⟨5, 6, 7, 8⟩]]⟩ x y).g,
           (getPix ⟨1, 1, [[⟨5, 6, 7, 8⟩]]⟩ x y).b) :=
  ⟨by decide, (C6_corner_window_clipped ⟨1, 1, [[⟨5, 6, 7, 8⟩]]⟩ (-1) (-1) 3).2.2
    (5, 6, 7) (by decide)⟩

/-! ## Sample multiplicity (C9) -/

/-- All coordinates sampled by the four corner windows, with multiplicity. -/
def cornerCoordsAll (img : Img) (size : Nat) : List (Int × Int) :=
  (corner_regions img size).flatMap fun k => clippedCoords img k.1 k.2 size

/-- The number of the four corner windows that contain `c`. -/
def windowMultiplicity (img : Img) (size : Nat) (c : Int × Int) : Nat :=
  ((corner_regions img size).filter fun k =>
    decide (inWindow k.1 k.2 size c)).length

theorem all_bg_colors_eq_map_coords (img : Img) (size : Nat) :
    all_bg_colors img size = (cornerCoordsAll img size).map (rgbAt img) := by
  unfold all_bg_colors cornerCoordsAll
  rw [List.map_flatMap]
  exact flatMap_congr_local _ _ _
    (fun k _ => sample_corner_region_eq_clipped img k.1 k.2 size)

/-- Occurrence count of a coordinate in a coordinate list. -/
def occCount (l : List (Int × Int)) (c : Int × Int) : Nat :=
  (l.filter fun d => decide (d = c)).length

theorem occCount_append (l1 l2 : List (Int × Int)) (c : Int × Int) :
    occCount (l1 ++ l2) c = occCount l1 c + occCount l2 c := by
  unfold occCount
  rw [List.filter_append, List.length_append]

theorem occCount_eq_zero (l : List (Int × Int)) (c : Int × Int)
    (h : c ∉ l) : occCount l c = 0 := by
  unfold occCount
  rw [List.filter_eq_nil_iff.mpr, List.length_nil]
  intro a ha
  simp only [decide_eq_true_eq]
  rintro rfl
  exact h ha

theorem occCount_eq_one (c : Int × Int) :
    ∀ l : List (Int × Int), l.Nodup → c ∈ l → occCount l c = 1 := by
  intro l
  induction l with
  | nil => intro _ hc; cases hc
  | cons b l ih =>
    intro hnd hc
    obtain ⟨hb, hl⟩ := List.nodup_cons.mp hnd
    rcases List.mem_cons.mp hc with rfl | hc'
    · unfold occCount
      rw [List.filter_cons_of_pos (by simp), List.length_cons]
      have h0 : occCount l c = 0 := occCount_eq_zero l c hb
      unfold occCount at h0
      omega
    · unfold occCount
      rw [List.filter_cons_of_neg]
      · exact ih hl hc'
      · simp only [decide_eq_true_eq]
        rintro rfl
        exact hb hc'

theorem count_clippedCoords (img : Img) (sx sy : Int) (size : Nat)
    (c : Int × Int) (hin : InB img c) :
    occCount (clippedCoords img sx sy size) c =
      if inWindow sx sy size c then 1 else 0 := by
  by_cases h : inWindow sx sy size c
  · rw [if_pos h]
    exact occCount_eq_one c _ (nodup_clippedCoords img sx sy size)
      (mem_clippedCoords.mpr ⟨h, hin⟩)
  · rw [if_neg h]
    exact occCount_eq_zero _ c (fun hc => h (mem_clippedCoords.mp hc).1)

/-- C9: the corner samples are concatenated with multiplicity (no
deduplication): every in-bounds pixel coordinate occurs in the sampled
coordinate list once per corner window containing it, so the background
estimate weights each pixel by its window multiplicity. -/
theorem C9_samples_with_multiplicity (img : Img) (size : Nat) :
    all_bg_colors img size = (cornerCoordsAll img size).map (rgbAt img) ∧
    ∀ c : Int × Int, InB img c →
      occCount (cornerCoordsAll img size) c = windowMultiplicity img size c := by
  refine ⟨all_bg_colors_eq_map_coords img size, ?_⟩
  intro c hin
  unfold cornerCoordsAll windowMultiplicity corner_regions
  simp only [List.flatMap_cons, List.flatMap_nil, List.append_nil,
    occCount_append]
  rw [count_clippedCoords _ _ _ _ _ hin, count_clippedCoords _ _ _ _ _ hin,
    count_clippedCoords _ _ _ _ _ hin, count_clippedCoords _ _ _ _ _ hin]
  by_cases h1 : inWindow 0 0 size c <;>
    by_cases h2 : inWindow ((img.width : Int) - (size : Int)) 0 size c <;>
    by_cases h3 : inWindow 0 ((img.height : Int) - (size : Int)) size c <;>
    by_cases h4 : inWindow ((img.width : Int) - (size : Int))
      ((img.height : Int) - (size : Int)) size c <;>
    simp [h1, h2, h3, h4, List.filter]

theorem C9_samples_with_multiplicity_witness :
    InB ⟨1, 1, [[⟨5, 6, 7, 8⟩]]⟩ (0, 0) ∧
      occCount (cornerCoordsAll ⟨1, 1, [[⟨5, 6, 7, 8⟩]]⟩ 2) (0, 0) =
        windowMultiplicity ⟨1, 1, [[⟨5, 6, 7, 8⟩]]⟩ 2 (0, 0) :=
  ⟨by decide, (C9_samples_with_multiplicity ⟨1, 1, [[⟨5, 6, 7, 8⟩]]⟩ 2).2
    (0, 0) (by decide)⟩

/-! ## The 1x1 image (C4) -/

theorem clipCount_one_of_anchor (s : Int) (size : Nat) (hs : 1 ≤ size)
    (h : s = 0 ∨ s = 1 - (size : Int)) : clipCount s size 1 = 1 := by
  unfold clipCount
  rcases h with h | h <;> subst h <;> omega

theorem max_anchor_zero (s : Int) (size : Nat) (hs : 1 ≤ size)
    (h : s = 0 ∨ s = 1 - (size : Int)) : max s 0 = 0 := by
  rcases h with h | h <;> subst h <;> omega

theorem clippedCoords_one (p : RGBA) (size : Nat) (hs : 1 ≤ size)
    (s t : Int) (hso : s = 0 ∨ s = 1 - (size : Int))
    (hto : t = 0 ∨ t = 1 - (size : Int)) :
    clippedCoords ⟨1, 1, [[p]]⟩ s t size = [((0 : Int), (0 : Int))] := by
  simp only [clippedCoords]
  rw [clipCount_one_of_anchor s size hs hso,
    clipCount_one_of_anchor t size hs hto,
    max_anchor_zero s size hs hso, max_anchor_zero t size hs hto]
  decide

theorem all_bg_colors_one (p : RGBA) (size : Nat) (hs : 1 ≤ size) :
    all_bg_colors ⟨1, 1, [[p]]⟩ size =
      [(p.r, p.g, p.b), (p.r, p.g, p.b), (p.r, p.g, p.b), (p.r, p.g, p.b)] := by
  unfold all_bg_colors corner_regions
  simp only [List.flatMap_cons, List.flatMap_nil, List.append_nil,
    Nat.cast_one]
  rw [sample_corner_region_eq_clipped, sample_corner_region_eq_clipped,
    sample_corner_region_eq_clipped, sample_corner_region_eq_clipped]
  rw [clippedCoords_one p size hs 0 0 (Or.inl rfl) (Or.inl rfl),
    clippedCoords_one p size hs _ 0 (Or.inr rfl) (Or.inl rfl),
    clippedCoords_one p size hs 0 _ (Or.inl rfl) (Or.inr rfl),
    clippedCoords_one p size hs _ _ (Or.inr rfl) (Or.inr rfl)]
  simp [rgbAt, getPix]

theorem bgEstimate_one (p : RGBA) (size : Nat) (hs : 1 ≤ size) :
    bgEstimate ⟨1, 1, [[p]]⟩ size = (p.r, p.g, p.b) := by
  unfold bgEstimate
  rw [all_bg_colors_one p size hs]
  simp only [List.map_cons, List.map_nil, List.sum_cons, List.sum_nil,
    List.length_cons, List.length_nil, Prod.mk.injEq]
  refine ⟨?_, ?_, ?_⟩ <;> omega

theorem foldl_clearPix_cleared :
    ∀ rm : List (Int × Int), (∀ c ∈ rm, c = ((0 : Int), (0 : Int))) →
      rm.foldl clearPix [[(⟨0, 0, 0, 0⟩ : RGBA)]] = [[⟨0, 0, 0, 0⟩]] := by
  intro rm
  induction rm with
  | nil => intro _; rfl
  | cons c rm ih =>
    intro hall
    have hc : c = ((0 : Int), (0 : Int)) := hall c (List.mem_cons_self c rm)
    subst hc
    rw [List.foldl_cons]
    exact ih fun d hd => hall d (List.mem_cons_of_mem _ hd)

theorem foldl_clearPix_one (q : RGBA) (rm : List (Int × Int))
    (hall : ∀ c ∈ rm, c = ((0 : Int), (0 : Int))) (hne : rm ≠ []) :
    rm.foldl clearPix [[q]] = [[⟨0, 0, 0, 0⟩]] := by
  match rm with
  | [] => exact absurd rfl hne
  | c :: rm =>
    have hc : c = ((0 : Int), (0 : Int)) := hall c (List.mem_cons_self c rm)
    subst hc
    rw [List.foldl_cons]
    exact foldl_clearPix_cleared rm fun d hd => hall d (List.mem_cons_of_mem _ hd)

theorem remove_one (p : RGBA) (size : Nat) (hs : 1 ≤ size) :
    remove_chroma_key_background ⟨1, 1, [[p]]⟩ 0 size =
      ⟨1, 1, [[⟨0, 0, 0, 0⟩]]⟩ := by
  have hne : all_bg_colors ⟨1, 1, [[p]]⟩ size ≠ [] := by
    rw [all_bg_colors_one p size hs]
    simp
  have hin00 : InB ⟨1, 1, [[p]]⟩ (0, 0) := by
    refine ⟨le_refl 0, ?_, le_refl 0, ?_⟩ <;> simp
  have habs : absorbs ⟨1, 1, [[p]]⟩ (bgEstimate ⟨1, 1, [[p]]⟩ size) 0 (0, 0) := by
    rw [bgEstimate_one p size hs]
    unfold absorbs color_distance_sq rgbAt getPix
    simp
  have hmem : ((0 : Int), (0 : Int)) ∈ removalSet ⟨1, 1, [[p]]⟩ 0 size := by
    rw [mem_removalSet_iff _ 0 size hne]
    exact Reach.border _ ⟨hin00, Or.inl rfl⟩ ⟨hin00, habs⟩
  unfold remove_chroma_key_background
  rw [if_neg hne]
  simp only [Img.mk.injEq]
  refine ⟨trivial, trivial, ?_⟩
  refine foldl_clearPix_one p _ ?_ (List.ne_nil_of_mem hmem)
  intro c hc
  have hin := removalSet_inB _ 0 size c hc
  obtain ⟨x, y⟩ := c
  obtain ⟨h1, h2, h3, h4⟩ := hin
  simp only [Nat.cast_one] at h2 h4
  simp only [Prod.mk.injEq]
  constructor <;> omega

/-- C4: the background estimate is the channelwise floor (integer division)
of the sample sums over the sample count; for a 1x1 image (any sample size
≥ 1) the estimate is exactly the single pixel's RGB, so with tolerance 0
that pixel is at distance 0 ≤ 0 and the whole image is cleared. -/
theorem C4_floor_mean_estimate (p : RGBA) (size : Nat) (hs : 1 ≤ size) :
    (∀ (img : Img) (s : Nat), bgEstimate img s =
      (((all_bg_colors img s).map fun c => c.1).sum /
          (all_bg_colors img s).length,
       ((all_bg_colors img s).map fun c => c.2.1).sum /
          (all_bg_colors img s).length,
       ((all_bg_colors img s).map fun c => c.2.2).sum /
          (all_bg_colors img s).length)) ∧
    bgEstimate ⟨1, 1, [[p]]⟩ size = (p.r, p.g, p.b) ∧
    remove_chroma_key_background ⟨1, 1, [[p]]⟩ 0 size =
      ⟨1, 1, [[⟨0, 0, 0, 0⟩]]⟩ :=
  ⟨fun img s => rfl, bgEstimate_one p size hs, remove_one p size hs⟩

theorem C4_floor_mean_estimate_witness :
    bgEstimate ⟨1, 1, [[⟨9, 8, 7, 6⟩]]⟩ 2 = (9, 8, 7) ∧
      remove_chroma_key_background ⟨1, 1, [[⟨9, 8, 7, 6⟩]]⟩ 0 2 =
        ⟨1, 1, [[⟨0, 0, 0, 0⟩]]⟩ :=
  ⟨(C4_floor_mean_estimate ⟨9, 8, 7, 6⟩ 2 (by decide)).2.1,
   (C4_floor_mean_estimate ⟨9, 8, 7, 6⟩ 2 (by decide)).2.2⟩

/-! ## Idempotence (C3) -/

theorem remove_eq_self_of_nil (img : Img) (tol size : Nat)
    (h : all_bg_colors img size = []) :
    remove_chroma_key_background img tol size = img := by
  unfold remove_chroma_key_background
  rw [if_pos h]

theorem remove_eq_self_of_removalSet_nil (img : Img) (tol size : Nat)
    (h : removalSet img tol size = []) :
    remove_chroma_key_background img tol size = img := by
  unfold remove_chroma_key_background
  split
  · rfl
  · rw [h]
    rfl

theorem rgbAt_remove (img : Img) (tol size : Nat) (hWF : img.WF)
    (c : Int × Int) (hin : InB img c) :
    rgbAt (remove_chroma_key_background img tol size) c =
      if c ∈ removalSet img tol size then ((0 : Nat), (0 : Nat), (0 : Nat))
      else rgbAt img c := by
  obtain ⟨x, y⟩ := c
  obtain ⟨h1, h2, h3, h4⟩ := hin
  have hg := getPix_remove img tol size hWF x.toNat y.toNat (by omega) (by omega)
  have hxy : ((x.toNat : Int), (y.toNat : Int)) = (x, y) := by
    simp only [Prod.mk.injEq]
    constructor <;> omega
  rw [hxy] at hg
  by_cases hmem : (x, y) ∈ removalSet img tol size
  · rw [if_pos hmem] at hg
    rw [if_pos hmem]
    simp only [rgbAt]
    rw [hg]
  · rw [if_neg hmem] at hg
    rw [if_neg hmem]
    simp only [rgbAt]
    rw [hg]

/-- C3 counterexample: a 2x2 image on which the second pass removes a pixel
even though cleared (0,0,0) pixels are not within tolerance of the second
run's background estimate — the estimate shifts because a cleared corner
enters the average, so the claim's proviso alone does not give idempotence. -/
theorem C3_counterexample :
    ¬ color_distance_sq (0, 0, 0)
        (bgEstimate (remove_chroma_key_background
          ⟨2, 2, [[⟨120, 0, 0, 255⟩, ⟨150, 0, 0, 255⟩],
            [⟨150, 0, 0, 255⟩, ⟨100, 0, 0, 255⟩]]⟩ 10 1) 1) ≤
        (10 : Int) * 10 ∧
      remove_chroma_key_background (remove_chroma_key_background
          ⟨2, 2, [[⟨120, 0, 0, 255⟩, ⟨150, 0, 0, 255⟩],
            [⟨150, 0, 0, 255⟩, ⟨100, 0, 0, 255⟩]]⟩ 10 1) 10 1 ≠
        remove_chroma_key_background
          ⟨2, 2, [[⟨120, 0, 0, 255⟩, ⟨150, 0, 0, 255⟩],
            [⟨150, 0, 0, 255⟩, ⟨100, 0, 0, 255⟩]]⟩ 10 1 := by
  constructor
  · decide
  · decide

/-- C3 (amended): a second pass with the same parameters is a no-op provided
the second run's background estimate equals the first run's (the
counterexample shows the estimate can shift when cleared corners enter the
average) and (0,0,0) is not within tolerance of that estimate. -/
theorem C3_idempotent_amended (img : Img) (tol size : Nat) (hWF : img.WF)
    (hbg : bgEstimate (remove_chroma_key_background img tol size) size =
      bgEstimate img size)
    (h0 : ¬ color_distance_sq (0, 0, 0) (bgEstimate img size) ≤
      (tol : Int) * (tol : Int)) :
    remove_chroma_key_background (remove_chroma_key_background img tol size)
        tol size =
      remove_chroma_key_background img tol size := by
  by_cases hnil1 : all_bg_colors img size = []
  · have he := remove_eq_self_of_nil img tol size hnil1
    rw [he]
    exact he
  · by_cases hnil2 : all_bg_colors
        (remove_chroma_key_background img tol size) size = []
    · exact remove_eq_self_of_nil _ tol size hnil2
    · refine remove_eq_self_of_removalSet_nil _ tol size ?_
      rw [List.eq_nil_iff_forall_not_mem]
      intro c hc
      rw [mem_removalSet_iff _ tol size hnil2, hbg] at hc
      induction hc with
      | border c hb hm =>
        have hin1 : InB (remove_chroma_key_background img tol size) c := hm.1
        have hinb : InB img c := by
          obtain ⟨a1, a2, a3, a4⟩ := hin1
          rw [remove_width] at a2
          rw [remove_height] at a4
          exact ⟨a1, a2, a3, a4⟩
        have hrg := rgbAt_remove img tol size hWF c hinb
        by_cases hmem : c ∈ removalSet img tol size
        · rw [if_pos hmem] at hrg
          have habs := hm.2
          unfold absorbs at habs
          rw [hrg] at habs
          exact h0 habs
        · rw [if_neg hmem] at hrg
          have habs := hm.2
          unfold absorbs at habs
          rw [hrg] at habs
          have hbord : OnBorder img c := by
            obtain ⟨_, hor⟩ := hb
            rw [remove_width, remove_height] at hor
            exact ⟨hinb, hor⟩
          refine hmem ?_
          rw [mem_removalSet_iff img tol size hnil1]
          exact Reach.border c hbord ⟨hinb, habs⟩
      | step c d hr hadj hm ih => exact ih

theorem C3_idempotent_amended_witness :
    Img.WF ⟨2, 2, [[⟨0, 0, 0, 255⟩, ⟨100, 0, 0, 255⟩],
        [⟨200, 0, 0, 255⟩, ⟨255, 0, 0, 255⟩]]⟩ ∧
      remove_chroma_key_background (remove_chroma_key_background
          ⟨2, 2, [[⟨0, 0, 0, 255⟩, ⟨100, 0, 0, 255⟩],
            [⟨200, 0, 0, 255⟩, ⟨255, 0, 0, 255⟩]]⟩ 10 1) 10 1 =
        remove_chroma_key_background
          ⟨2, 2, [[⟨0, 0, 0, 255⟩, ⟨100, 0, 0, 255⟩],
            [⟨200, 0, 0, 255⟩, ⟨255, 0, 0, 255⟩]]⟩ 10 1 :=
  ⟨by decide, C3_idempotent_amended
    ⟨2, 2, [[⟨0, 0, 0, 255⟩, ⟨100, 0, 0, 255⟩],
      [⟨200, 0, 0, 255⟩, ⟨255, 0, 0, 255⟩]]⟩ 10 1
    (by decide) (by decide) (by decide)⟩

/-! ## The 4x4 magenta frame scenario (C8) -/

/-- A 4x4 image: 1-pixel magenta (255,0,255) border frame around a 2x2
center with arbitrary pixels. -/
def mk8 (p11 p21 p12 p22 : RGBA) : Img :=
  ⟨4, 4,
   [[⟨255, 0, 255, 255⟩, ⟨255, 0, 255, 255⟩, ⟨255, 0, 255, 255⟩,
     ⟨255, 0, 255, 255⟩],
    [⟨255, 0, 255, 255⟩, p11, p21, ⟨255, 0, 255, 255⟩],
    [⟨255, 0, 255, 255⟩, p12, p22, ⟨255, 0, 255, 255⟩],
    [⟨255, 0, 255, 255⟩, ⟨255, 0, 255, 255⟩, ⟨255, 0, 255, 255⟩,
     ⟨255, 0, 255, 255⟩]]⟩

/-- C8 counterexample: a 4x4 magenta frame with a non-magenta (250,0,250)
center is fully cleared at tolerance 10 — the center is non-magenta yet
within tolerance, so "non-magenta center" alone does not keep the center. -/
theorem C8_counterexample :
    ((250, 0, 250) : Nat × Nat × Nat) ≠ ((255, 0, 255) : Nat × Nat × Nat) ∧
      getPix (remove_chroma_key_background
          (mk8 ⟨250, 0, 250, 255⟩ ⟨250, 0, 250, 255⟩ ⟨250, 0, 250, 255⟩
            ⟨250, 0, 250, 255⟩) 10 1) 1 1 = ⟨0, 0, 0, 0⟩ ∧
      getPix (mk8 ⟨250, 0, 250, 255⟩ ⟨250, 0, 250, 255⟩ ⟨250, 0, 250, 255⟩
          ⟨250, 0, 250, 255⟩) 1 1 = ⟨250, 0, 250, 255⟩ := by
  refine ⟨by decide, by decide, by decide⟩

theorem mk8_WF (p11 p21 p12 p22 : RGBA) : (mk8 p11 p21 p12 p22).WF := by
  refine ⟨rfl, ?_⟩
  intro row hrow
  simp only [mk8, List.mem_cons, List.not_mem_nil, or_false] at hrow
  rcases hrow with rfl | rfl | rfl | rfl <;> rfl

theorem mk8_bgEstimate (p11 p21 p12 p22 : RGBA) :
    bgEstimate (mk8 p11 p21 p12 p22) 1 = (255, 0, 255) := by
  unfold bgEstimate
  rw [show all_bg_colors (mk8 p11 p21 p12 p22) 1 =
    [(255, 0, 255), (255, 0, 255), (255, 0, 255), (255, 0, 255)] from rfl]
  decide

theorem mk8_border_rgb (p11 p21 p12 p22 : RGBA) (c : Int × Int)
    (hb : OnBorder (mk8 p11 p21 p12 p22) c) :
    rgbAt (mk8 p11 p21 p12 p22) c = (255, 0, 255) := by
  obtain ⟨⟨h1, h2, h3, h4⟩, hor⟩ := hb
  obtain ⟨x, y⟩ := c
  simp only [mk8] at h2 h4 hor
  norm_num at h2 h4 hor
  interval_cases x <;> interval_cases y <;> first | rfl | omega

theorem mk8_inb_not_center_border (p11 p21 p12 p22 : RGBA) (d : Int × Int)
    (hin : InB (mk8 p11 p21 p12 p22) d)
    (hn : d ≠ ((1 : Int), (1 : Int)) ∧ d ≠ ((2 : Int), (1 : Int)) ∧
      d ≠ ((1 : Int), (2 : Int)) ∧ d ≠ ((2 : Int), (2 : Int))) :
    OnBorder (mk8 p11 p21 p12 p22) d := by
  obtain ⟨x, y⟩ := d
  obtain ⟨h1, h2, h3, h4⟩ := hin
  obtain ⟨n1, n2, n3, n4⟩ := hn
  have m1 : ¬(x = 1 ∧ y = 1) := fun h => n1 (by rw [h.1, h.2])
  have m2 : ¬(x = 2 ∧ y = 1) := fun h => n2 (by rw [h.1, h.2])
  have m3 : ¬(x = 1 ∧ y = 2) := fun h => n3 (by rw [h.1, h.2])
  have m4 : ¬(x = 2 ∧ y = 2) := fun h => n4 (by rw [h.1, h.2])
  refine ⟨⟨h1, h2, h3, h4⟩, ?_⟩
  have hw : (((mk8 p11 p21 p12 p22).width : Nat) : Int) = 4 := rfl
  have hh : (((mk8 p11 p21 p12 p22).height : Nat) : Int) = 4 := rfl
  rw [hw] at h2
  rw [hh] at h4
  simp only [hw, hh]
  omega

theorem mk8_reach_iff (p11 p21 p12 p22 : RGBA)
    (h11 : ¬ color_distance_sq (p11.r, p11.g, p11.b) (255, 0, 255) ≤
      (10 : Int) * 10)
    (h21 : ¬ color_distance_sq (p21.r, p21.g, p21.b) (255, 0, 255) ≤
      (10 : Int) * 10)
    (h12 : ¬ color_distance_sq (p12.r, p12.g, p12.b) (255, 0, 255) ≤
      (10 : Int) * 10)
    (h22 : ¬ color_distance_sq (p22.r, p22.g, p22.b) (255, 0, 255) ≤
      (10 : Int) * 10)
    (c : Int × Int) :
    Reach (mk8 p11 p21 p12 p22) (255, 0, 255) 10 c ↔
      OnBorder (mk8 p11 p21 p12 p22) c := by
  constructor
  · intro h
    induction h with
    | border c hb _ => exact hb
    | step c d _ hadj hm ih =>
      refine mk8_inb_not_center_border p11 p21 p12 p22 d hm.1
        ⟨?_, ?_, ?_, ?_⟩ <;> rintro rfl
      · exact h11 hm.2
      · exact h21 hm.2
      · exact h12 hm.2
      · exact h22 hm.2
  · intro hb
    refine Reach.border c hb ⟨hb.1, ?_⟩
    unfold absorbs
    rw [mk8_border_rgb p11 p21 p12 p22 c hb]
    decide

/-- C8 (amended): for a 4x4 magenta-frame image whose four center pixels are
each at Euclidean RGB distance strictly above the tolerance 10 from magenta
(255,0,255) — "non-magenta" alone is not enough, as the counterexample
shows — the transform with corner_sample_size 1 and tolerance 10 removes
exactly the 12 border pixels and leaves each center pixel with its original
color and alpha. -/
theorem C8_magenta_frame (p11 p21 p12 p22 : RGBA)
    (h11 : ¬ color_distance_sq (p11.r, p11.g, p11.b) (255, 0, 255) ≤
      (10 : Int) * 10)
    (h21 : ¬ color_distance_sq (p21.r, p21.g, p21.b) (255, 0, 255) ≤
      (10 : Int) * 10)
    (h12 : ¬ color_distance_sq (p12.r, p12.g, p12.b) (255, 0, 255) ≤
      (10 : Int) * 10)
    (h22 : ¬ color_distance_sq (p22.r, p22.g, p22.b) (255, 0, 255) ≤
      (10 : Int) * 10) :
    (∀ c : Int × Int, c ∈ removalSet (mk8 p11 p21 p12 p22) 10 1 ↔
      OnBorder (mk8 p11 p21 p12 p22) c) ∧
    ∀ x y : Nat, x < 4 → y < 4 →
      getPix (remove_chroma_key_background (mk8 p11 p21 p12 p22) 10 1) x y =
        if x = 0 ∨ x = 3 ∨ y = 0 ∨ y = 3 then ⟨0, 0, 0, 0⟩
        else getPix (mk8 p11 p21 p12 p22) x y := by
  have hnil : all_bg_colors (mk8 p11 p21 p12 p22) 1 ≠ [] := by
    rw [show all_bg_colors (mk8 p11 p21 p12 p22) 1 =
      [(255, 0, 255), (255, 0, 255), (255, 0, 255), (255, 0, 255)] from rfl]
    simp
  have hiff : ∀ c : Int × Int, c ∈ removalSet (mk8 p11 p21 p12 p22) 10 1 ↔
      OnBorder (mk8 p11 p21 p12 p22) c := by
    intro c
    rw [mem_removalSet_iff _ 10 1 hnil, mk8_bgEstimate p11 p21 p12 p22]
    exact mk8_reach_iff p11 p21 p12 p22 h11 h21 h12 h22 c
  refine ⟨hiff, ?_⟩
  intro x y hx hy
  rw [getPix_remove _ 10 1 (mk8_WF p11 p21 p12 p22) x y (by norm_num [mk8]; omega)
    (by norm_num [mk8]; omega)]
  refine if_congr ?_ rfl rfl
  rw [hiff ((x : Int), (y : Int))]
  have hw : (((mk8 p11 p21 p12 p22).width : Nat) : Int) = 4 := rfl
  have hh : (((mk8 p11 p21 p12 p22).height : Nat) : Int) = 4 := rfl
  unfold OnBorder InB
  rw [hw, hh]
  simp only [Prod.fst, Prod.snd]
  constructor
  · rintro ⟨_, hor⟩
    omega
  · intro hor
    refine ⟨⟨by omega, by omega, by omega, by omega⟩, by omega⟩

theorem C8_magenta_frame_witness :
    (¬ color_distance_sq ((10 : Nat), (200 : Nat), (30 : Nat)) (255, 0, 255) ≤
      (10 : Int) * 10) ∧
      getPix (remove_chroma_key_background
          (mk8 ⟨10, 200, 30, 255⟩ ⟨40, 50, 60, 200⟩ ⟨7, 8, 9, 123⟩
            ⟨0, 0, 0, 77⟩) 10 1) 1 1 =
        (if (1 : Nat) = 0 ∨ (1 : Nat) = 3 ∨ (1 : Nat) = 0 ∨ (1 : Nat) = 3
          then ⟨0, 0, 0, 0⟩
          else getPix (mk8 ⟨10, 200, 30, 255⟩ ⟨40, 50, 60, 200⟩ ⟨7, 8, 9, 123⟩
            ⟨0, 0, 0, 77⟩) 1 1) :=
  ⟨by decide, (C8_magenta_frame ⟨10, 200, 30, 255⟩ ⟨40, 50, 60, 200⟩
      ⟨7, 8, 9, 123⟩ ⟨0, 0, 0, 77⟩ (by decide) (by decide) (by decide)
      (by decide)).2 1 1 (by decide) (by decide)⟩
